import Mathlib

/-!
# Verification of the symbol-service batch / undead-transaction core

Shallow embedding of the TypeScript sources of `symbol-service`
(`src/services/symbol.ts` and the necromancy/undead-transaction module).
Strings are modelled as `List Char`, JS numbers as `ℕ`/`ℤ`/`ℚ` as
appropriate, and fallible code as `Except`/`Option`.
-/

set_option maxRecDepth 8000

namespace SymbolEmbed

/-! ### JS numeral strings

`Number.prototype.toString(16)` renders a natural number in lowercase
hexadecimal (`Nat.digitChar` agrees with JS on digits `0..15`), and
`Long.toString()` renders base ten.  `jsToString b n` models
`n.toString(b)` for a non-negative integer `n`; `decodeChars b l` models
parsing the digit string back (`Long.fromString` for base ten, and the
arithmetic meaning of a hex string for base 16). -/

def charVal (c : Char) : ℕ :=
  if '0' ≤ c ∧ c ≤ '9' then c.toNat - 48
  else if 'a' ≤ c ∧ c ≤ 'f' then c.toNat - 87
  else if 'A' ≤ c ∧ c ≤ 'F' then c.toNat - 55
  else 0

/-- Little-endian digit list of `n` in base `b`, with explicit fuel so the
definition is structural (it agrees with `Nat.digits` once the fuel covers
`n`, see `jsDigits_eq_digits`). -/
def jsDigits (b : ℕ) : ℕ → ℕ → List ℕ
  | 0, _ => []
  | fuel + 1, n => if n = 0 then [] else n % b :: jsDigits b fuel (n / b)

def jsToString (b n : ℕ) : List Char :=
  if n = 0 then ['0'] else ((jsDigits b n n).map Nat.digitChar).reverse

def decodeChars (b : ℕ) (l : List Char) : ℕ :=
  l.foldl (fun a c => b * a + charVal c) 0

theorem jsDigits_eq_digits (b : ℕ) (hb : 2 ≤ b) :
    ∀ fuel n, n ≤ fuel → jsDigits b fuel n = Nat.digits b n := by
  intro fuel
  induction fuel with
  | zero =>
    intro n hn
    interval_cases n
    simp [jsDigits]
  | succ f ih =>
    intro n hn
    by_cases h0 : n = 0
    · simp [jsDigits, h0]
    · have hdiv : n / b < n := Nat.div_lt_self (by omega) (by omega)
      rw [jsDigits, if_neg h0, Nat.digits_def' (show 1 < b by omega) (show 0 < n by omega),
        ih (n / b) (by omega)]

theorem charVal_digitChar : ∀ d : ℕ, d < 16 → charVal (Nat.digitChar d) = d := by
  decide

theorem decodeChars_append_singleton (b : ℕ) (l : List Char) (c : Char) :
    decodeChars b (l ++ [c]) = b * decodeChars b l + charVal c := by
  simp [decodeChars, List.foldl_append]

theorem decodeChars_zeros_append (b : ℕ) (k : ℕ) (l : List Char) :
    decodeChars b (List.replicate k '0' ++ l) = decodeChars b l := by
  induction k with
  | zero => rfl
  | succ n ih =>
    have h0 : b * 0 + charVal '0' = 0 := by simp [charVal]
    simpa [decodeChars, List.replicate_succ, h0] using ih

theorem decodeChars_map_digits (b : ℕ) (hb : b ≤ 16) :
    ∀ ds : List ℕ, (∀ d ∈ ds, d < b) →
      decodeChars b ((ds.map Nat.digitChar).reverse) = Nat.ofDigits b ds := by
  intro ds
  induction ds with
  | nil => intro _; rfl
  | cons d t ih =>
    intro h
    have hd : d < 16 := lt_of_lt_of_le (h d (by simp)) hb
    rw [List.map_cons, List.reverse_cons, decodeChars_append_singleton,
      ih (fun x hx => h x (by simp [hx])), charVal_digitChar d hd,
      Nat.ofDigits_cons]
    ring

theorem decodeChars_jsToString (b n : ℕ) (hb2 : 2 ≤ b) (hb : b ≤ 16) :
    decodeChars b (jsToString b n) = n := by
  unfold jsToString
  by_cases h : n = 0
  · simp [h, decodeChars, charVal]
  · rw [if_neg h, jsDigits_eq_digits b hb2 n n le_rfl, decodeChars_map_digits b hb _
      (fun d hd => Nat.digits_lt_base hb2 hd), Nat.ofDigits_digits]

/-- Length of the JS numeral string: below `b ^ k` the string has at most
`k` digits (used for the zero-padding steps in the source). -/
theorem jsToString_length_le (b n k : ℕ) (hb2 : 2 ≤ b) (hk : 0 < k)
    (h : n < b ^ k) : (jsToString b n).length ≤ k := by
  unfold jsToString
  by_cases h0 : n = 0
  · simpa [h0] using hk
  · rw [if_neg h0, jsDigits_eq_digits b hb2 n n le_rfl]
    simp only [List.length_reverse, List.length_map]
    rw [Nat.digits_len b n hb2 h0]
    have := (Nat.lt_pow_iff_log_lt hb2 h0).mp h
    omega

/-! ### Wire data model

The symbol-sdk types consumed by the service, embedded structurally.
`UInt64` is the SDK's 64-bit integer as a `(lower, higher)` pair of 32-bit
words (`toDTO` is `[lower, higher]`); hex payloads are lists of hex
characters, each character one nibble. -/

structure UInt64 where
  lower : ℕ
  higher : ℕ
deriving DecidableEq, Repr

/-- JS `str.padStart(k, c)`. -/
def padStart (k : ℕ) (c : Char) (l : List Char) : List Char :=
  List.replicate (k - l.length) c ++ l

/-- JS `str.substring(a, b)` (for `a ≤ b` within bounds). -/
def jsSubstring (l : List Char) (a b : ℕ) : List Char :=
  (l.drop a).take (b - a)

/-- SDK `UInt64.toHex`: higher then lower word, each rendered in hex
and left-padded to 8 characters. -/
def UInt64.toHex (v : UInt64) : List Char :=
  padStart 8 '0' (jsToString 16 v.higher) ++ padStart 8 '0' (jsToString 16 v.lower)

/-- SDK `UInt64.toDTO`: `[lower, higher]`. -/
def UInt64.toDTO (v : UInt64) : List ℕ :=
  [v.lower, v.higher]

/-- SDK `new UInt64(intArray)`: reads `intArray[0]` as the lower and
`intArray[1]` as the higher word. -/
def UInt64.fromDTO (l : List ℕ) : UInt64 :=
  { lower := l.getD 0 0, higher := l.getD 1 0 }

structure CosignatureSignedTransaction where
  parentHash : List Char
  signature : List Char
  signerPublicKey : List Char
  version : UInt64
deriving DecidableEq, Repr

structure SignedTransaction where
  payload : List Char
  hash : List Char
  signerPublicKey : List Char
  type : ℕ
  networkType : ℕ
deriving DecidableEq, Repr

namespace SymbolService

/-- The size-header computation inside `createSignedTxWithCosignatures`:
`` const size = `00000000${n.toString(16)}` ``, then
`size.substring(size.length - 8)`, then the four byte pairs reversed into
little-endian order. -/
def littleEndianSizeOf (n : ℕ) : List Char :=
  let size := List.replicate 8 '0' ++ jsToString 16 n
  let formatedSize := size.drop (size.length - 8)
  jsSubstring formatedSize 6 8 ++ jsSubstring formatedSize 4 6 ++
    jsSubstring formatedSize 2 4 ++ jsSubstring formatedSize 0 2

/-- Embedding of `SymbolService.createSignedTxWithCosignatures` from
`src/services/symbol.ts`: appends each cosignature's
`version.toHex() + signerPublicKey + signature` to the payload, then
rewrites the little-endian 4-byte (8 hex character) size header at offset 0
to the new byte length `payload.length / 2`.  The JS `/ 2` is float
division; it coincides with `Nat` division because transaction payloads
have an even number of hex characters. -/
def createSignedTxWithCosignatures (signedTx : SignedTransaction)
    (cosignatureSignedTxs : List CosignatureSignedTransaction) : SignedTransaction :=
  let payload := cosignatureSignedTxs.foldl
    (fun p co => p ++ co.version.toHex ++ co.signerPublicKey ++ co.signature)
    signedTx.payload
  { payload := littleEndianSizeOf (payload.length / 2) ++ payload.drop 8
    hash := signedTx.hash
    signerPublicKey := signedTx.signerPublicKey
    type := signedTx.type
    networkType := signedTx.networkType }

end SymbolService

/-- Value of one byte written as two hex characters. -/
def hexPair (c1 c2 : Char) : ℕ :=
  16 * charVal c1 + charVal c2

/-- Little-endian reading of the first four bytes (eight hex characters) of
a payload. -/
def decodeLE4 (l : List Char) : ℕ :=
  hexPair (l.getD 0 '0') (l.getD 1 '0') +
  256 * hexPair (l.getD 2 '0') (l.getD 3 '0') +
  65536 * hexPair (l.getD 4 '0') (l.getD 5 '0') +
  16777216 * hexPair (l.getD 6 '0') (l.getD 7 '0')

theorem padStart_length {k : ℕ} {c : Char} {l : List Char} (h : l.length ≤ k) :
    (padStart k c l).length = k := by
  simp [padStart]
  omega

theorem jsToString16_length_le_eight {n : ℕ} (h : n < 2 ^ 32) :
    (jsToString 16 n).length ≤ 8 := by
  refine jsToString_length_le 16 n 8 (by norm_num) (by norm_num) ?_
  norm_num
  omega

theorem UInt64.toHex_length (v : UInt64) (hl : v.lower < 2 ^ 32)
    (hh : v.higher < 2 ^ 32) : v.toHex.length = 16 := by
  simp [UInt64.toHex, padStart_length (jsToString16_length_le_eight hl),
    padStart_length (jsToString16_length_le_eight hh)]

theorem cosig_foldl_append (C : List CosignatureSignedTransaction) :
    ∀ init : List Char,
      C.foldl (fun p co => p ++ co.version.toHex ++ co.signerPublicKey ++ co.signature) init =
        init ++ (C.map fun co => co.version.toHex ++ co.signerPublicKey ++ co.signature).flatten := by
  induction C with
  | nil => intro init; simp
  | cons co t ih =>
    intro init
    rw [List.foldl_cons, ih]
    simp [List.append_assoc]

theorem length_eight_shape (l : List Char) (h : l.length = 8) :
    ∃ c0 c1 c2 c3 c4 c5 c6 c7, l = [c0, c1, c2, c3, c4, c5, c6, c7] := by
  rcases l with _ | ⟨c0, l⟩; · simp at h
  rcases l with _ | ⟨c1, l⟩; · simp at h
  rcases l with _ | ⟨c2, l⟩; · simp at h
  rcases l with _ | ⟨c3, l⟩; · simp at h
  rcases l with _ | ⟨c4, l⟩; · simp at h
  rcases l with _ | ⟨c5, l⟩; · simp at h
  rcases l with _ | ⟨c6, l⟩; · simp at h
  rcases l with _ | ⟨c7, l⟩; · simp at h
  have : l = [] := by
    simp only [List.length_cons] at h
    exact List.length_eq_zero.mp (by omega)
  exact ⟨c0, c1, c2, c3, c4, c5, c6, c7, by rw [this]⟩

/-- The size-header rewrite of `createSignedTxWithCosignatures`, in
isolation: padding the hex rendering of `n` to 8 characters and swapping
the four byte pairs yields an 8-character header whose little-endian
reading is `n`. -/
theorem decodeLE4_header (n : ℕ) (hn : n < 2 ^ 32) :
    (SymbolService.littleEndianSizeOf n).length = 8 ∧
      decodeLE4 (SymbolService.littleEndianSizeOf n) = n := by
  unfold SymbolService.littleEndianSizeOf
  simp only
  set D := jsToString 16 n with hD
  have hk : D.length ≤ 8 := jsToString16_length_le_eight hn
  have hlen : (List.replicate 8 '0' ++ D).length - 8 = D.length := by simp
  have hdrop : (List.replicate 8 '0' ++ D).drop D.length =
      List.replicate (8 - D.length) '0' ++ D := by
    rw [List.drop_append_of_le_length (by simp [hk]), List.drop_replicate]
  rw [hlen, hdrop]
  have hflen : (List.replicate (8 - D.length) '0' ++ D).length = 8 := by
    simp; omega
  obtain ⟨c0, c1, c2, c3, c4, c5, c6, c7, hf⟩ :=
    length_eight_shape _ hflen
  have hdec : decodeChars 16 [c0, c1, c2, c3, c4, c5, c6, c7] = n := by
    rw [← hf, decodeChars_zeros_append, hD, decodeChars_jsToString 16 n
      (by norm_num) (by norm_num)]
  rw [hf]
  constructor
  · simp [jsSubstring]
  · simp only [decodeChars, List.foldl] at hdec
    simp [jsSubstring, decodeLE4, hexPair]
    omega

theorem cosig_flatten_length (C : List CosignatureSignedTransaction)
    (hC : ∀ co ∈ C, co.signerPublicKey.length = 64 ∧ co.signature.length = 128 ∧
      co.version.lower < 2 ^ 32 ∧ co.version.higher < 2 ^ 32) :
    ((C.map fun co => co.version.toHex ++ co.signerPublicKey ++ co.signature).flatten).length
      = 208 * C.length := by
  induction C with
  | nil => simp
  | cons co t ih =>
    obtain ⟨h1, h2, h3, h4⟩ := hC co (by simp)
    have ht := ih (fun x hx => hC x (by simp [hx]))
    simp only [List.map_cons, List.flatten_cons, List.length_append, ht,
      UInt64.toHex_length co.version h3 h4, h1, h2, List.length_cons]
    ring

/-- C5: merging cosignatures into a signed transaction preserves its
identity: the hash, signer public key, transaction type and network id of
the result are copied unchanged from the input.  The embedding is a pure
function building a new record, so the argument itself is untouched
(mirroring the source, which only reads `signedTx`). -/
theorem createSignedTxWithCosignatures_preserves_identity
    (S : SignedTransaction) (C : List CosignatureSignedTransaction) :
    (SymbolService.createSignedTxWithCosignatures S C).hash = S.hash ∧
    (SymbolService.createSignedTxWithCosignatures S C).signerPublicKey = S.signerPublicKey ∧
    (SymbolService.createSignedTxWithCosignatures S C).type = S.type ∧
    (SymbolService.createSignedTxWithCosignatures S C).networkType = S.networkType :=
  ⟨rfl, rfl, rfl, rfl⟩

/-- C6: for a well-formed signed transaction (hex payload of even length,
at least 4 bytes) and cosignatures with the SDK field widths, the merged
payload grows by exactly 104 bytes (208 hex characters) per cosignature,
the payload past the 4-byte header is the original payload past the header
followed by the appended cosignature fields, and the little-endian reading
of the new 4-byte size header is exactly the new total byte length. -/
theorem createSignedTxWithCosignatures_payload
    (S : SignedTransaction) (C : List CosignatureSignedTransaction)
    (hlen : 8 ≤ S.payload.length) (heven : S.payload.length % 2 = 0)
    (hC : ∀ co ∈ C, co.signerPublicKey.length = 64 ∧ co.signature.length = 128 ∧
      co.version.lower < 2 ^ 32 ∧ co.version.higher < 2 ^ 32)
    (hsize : S.payload.length / 2 + 104 * C.length < 2 ^ 32) :
    (SymbolService.createSignedTxWithCosignatures S C).payload.length
        = S.payload.length + 208 * C.length ∧
    (SymbolService.createSignedTxWithCosignatures S C).payload.drop 8
        = S.payload.drop 8 ++
          (C.map fun co => co.version.toHex ++ co.signerPublicKey ++ co.signature).flatten ∧
    2 * decodeLE4 ((SymbolService.createSignedTxWithCosignatures S C).payload.take 8)
        = (SymbolService.createSignedTxWithCosignatures S C).payload.length := by
  have hp1 := cosig_foldl_append C S.payload
  set A := (C.map fun co => co.version.toHex ++ co.signerPublicKey ++ co.signature).flatten
    with hAdef
  have hAlen : A.length = 208 * C.length := cosig_flatten_length C hC
  have hp1len : (S.payload ++ A).length = S.payload.length + 208 * C.length := by
    simp [hAlen]
  have hnlt : (S.payload ++ A).length / 2 < 2 ^ 32 := by omega
  obtain ⟨hLE8, hLEdec⟩ := decodeLE4_header ((S.payload ++ A).length / 2) hnlt
  have hrp : (SymbolService.createSignedTxWithCosignatures S C).payload =
      SymbolService.littleEndianSizeOf ((S.payload ++ A).length / 2)
        ++ (S.payload ++ A).drop 8 := by
    simp only [SymbolService.createSignedTxWithCosignatures]
    rw [hp1]
  have hdropLE : ∀ l2 : List Char,
      (SymbolService.littleEndianSizeOf ((S.payload ++ A).length / 2) ++ l2).drop 8 = l2 := by
    intro l2
    rw [← hLE8]
    exact List.drop_left _ _
  have htakeLE : ∀ l2 : List Char,
      (SymbolService.littleEndianSizeOf ((S.payload ++ A).length / 2) ++ l2).take 8 =
        SymbolService.littleEndianSizeOf ((S.payload ++ A).length / 2) := by
    intro l2
    rw [← hLE8]
    exact List.take_left _ _
  refine ⟨?_, ?_, ?_⟩
  · rw [hrp, List.length_append, hLE8, List.length_drop, hp1len]
    omega
  · rw [hrp, hdropLE, List.drop_append_of_le_length hlen]
  · rw [hrp, htakeLE, hLEdec]
    have hr2 : (SymbolService.littleEndianSizeOf ((S.payload ++ A).length / 2) ++
        List.drop 8 (S.payload ++ A)).length = S.payload.length + 208 * C.length := by
      rw [List.length_append, hLE8, List.length_drop, hp1len]
      omega
    rw [hr2, hp1len]
    omega

def witnessSignedTx : SignedTransaction :=
  { payload := ['0', '8', '0', '0', '0', '0', '0', '0']
    hash := ['h']
    signerPublicKey := ['k']
    type := 16705
    networkType := 152 }

def witnessCosigs : List CosignatureSignedTransaction :=
  [{ parentHash := ['h']
     signature := List.replicate 128 'b'
     signerPublicKey := List.replicate 64 'a'
     version := { lower := 0, higher := 0 } }]

theorem createSignedTxWithCosignatures_payload_witness :
    (8 ≤ witnessSignedTx.payload.length ∧ witnessSignedTx.payload.length % 2 = 0 ∧
      (∀ co ∈ witnessCosigs, co.signerPublicKey.length = 64 ∧ co.signature.length = 128 ∧
        co.version.lower < 2 ^ 32 ∧ co.version.higher < 2 ^ 32) ∧
      witnessSignedTx.payload.length / 2 + 104 * witnessCosigs.length < 2 ^ 32) ∧
    ((SymbolService.createSignedTxWithCosignatures witnessSignedTx witnessCosigs).payload.length
        = witnessSignedTx.payload.length + 208 * witnessCosigs.length ∧
      (SymbolService.createSignedTxWithCosignatures witnessSignedTx witnessCosigs).payload.drop 8
        = witnessSignedTx.payload.drop 8 ++
          (witnessCosigs.map fun co =>
            co.version.toHex ++ co.signerPublicKey ++ co.signature).flatten ∧
      2 * decodeLE4 ((SymbolService.createSignedTxWithCosignatures witnessSignedTx
            witnessCosigs).payload.take 8)
        = (SymbolService.createSignedTxWithCosignatures witnessSignedTx
            witnessCosigs).payload.length) :=
  ⟨⟨by decide, by decide, by decide, by decide⟩,
    createSignedTxWithCosignatures_payload witnessSignedTx witnessCosigs
      (by decide) (by decide) (by decide) (by decide)⟩

/-! ### Batch chunking and the batch dispatcher -/

def ceilDiv (l b : ℕ) : ℕ :=
  (l + b - 1) / b

namespace SymbolService

/-- The chunking loop of `SymbolService.buildAggregateCompleteTxBatches`
(`src/services/symbol.ts`): a do/while that repeatedly
`txPool.splice(0, batchSize)`s the pool and pushes one batch per
iteration, stopping once the pool is empty.  Composition of the aggregate
transaction itself is irrelevant to the chunking claim, so a batch is the
inner-operation list.  The structural fuel (one more than the pool length)
covers every iteration whenever `batchSize > 0`. -/
def buildBatchesAux {α : Type} (batchSize : ℕ) : ℕ → List α → List (List α)
  | 0, _ => []
  | fuel + 1, txPool =>
    let innerTxs := txPool.take batchSize
    let rest := txPool.drop batchSize
    innerTxs :: (if rest.isEmpty then [] else buildBatchesAux batchSize fuel rest)

def buildAggregateCompleteTxBatches {α : Type} (txs : List α) (batchSize : ℕ) :
    List (List α) :=
  buildBatchesAux batchSize (txs.length + 1) txs

/-- One dispatcher worker of `SymbolService.executeBatches`
(`src/services/symbol.ts`): the async closure drains the shared pool,
announces each batch, then filters the confirmation results for errors
(modelled by the oracle `listenErrors`).  JS `resolve` fixes the promise's
value at its first call but does **not** exit the loop, so the worker keeps
announcing the remaining batches.  Returns the batches announced, in
order, together with the promise's settled value (`none` models
`resolve(undefined)`). -/
def executeBatchesWorker {β ε : Type} (listenErrors : β → List ε) :
    List β → List β × Option (List ε)
  | [] => ([], none)
  | batch :: rest =>
    let r := executeBatchesWorker listenErrors rest
    (batch :: r.1,
      if (listenErrors batch).isEmpty then r.2 else some (listenErrors batch))

end SymbolService

theorem buildBatchesAux_spec {α : Type} (B : ℕ) (hB : 0 < B) :
    ∀ fuel (pool : List α), pool.length < fuel →
      (SymbolService.buildBatchesAux B fuel pool).length = max 1 (ceilDiv pool.length B) ∧
      (∀ b ∈ SymbolService.buildBatchesAux B fuel pool, b.length ≤ B) ∧
      (SymbolService.buildBatchesAux B fuel pool).flatten = pool := by
  intro fuel
  induction fuel with
  | zero => intro pool h; omega
  | succ f ih =>
    intro pool hlt
    rw [SymbolService.buildBatchesAux]
    by_cases hrest : (pool.drop B).isEmpty
    · have hle : pool.length ≤ B := by
        rw [List.isEmpty_iff, List.drop_eq_nil_iff] at hrest
        exact hrest
      rw [if_pos hrest]
      refine ⟨?_, ?_, ?_⟩
      · have : ceilDiv pool.length B ≤ 1 := by
          unfold ceilDiv
          rw [Nat.div_le_iff_le_mul_add_pred hB]
          omega
        simp
        omega
      · intro b hb
        simp at hb
        rw [hb]
        exact (List.length_take _ _).le.trans (by omega)
      · have := List.take_append_drop B pool
        rw [List.isEmpty_iff] at hrest
        simpa [hrest] using this
    · have hgt : B < pool.length := by
        rw [List.isEmpty_iff, List.drop_eq_nil_iff] at hrest
        omega
      rw [if_neg hrest]
      have hrlen : (pool.drop B).length = pool.length - B := List.length_drop _ _
      obtain ⟨ihlen, ihmem, ihflat⟩ := ih (pool.drop B) (by omega)
      refine ⟨?_, ?_, ?_⟩
      · rw [List.length_cons, ihlen, hrlen]
        have h1 : ceilDiv pool.length B = (pool.length - 1) / B + 1 := by
          unfold ceilDiv
          rw [show pool.length + B - 1 = pool.length - 1 + B by omega,
            Nat.add_div_right _ hB]
        have h2 : ceilDiv (pool.length - B) B = (pool.length - 1) / B := by
          unfold ceilDiv
          congr 1
          omega
        have h3 : 1 ≤ ceilDiv (pool.length - B) B := by
          unfold ceilDiv
          rw [Nat.one_le_div_iff hB]
          omega
        omega
      · intro b hb
        rcases List.mem_cons.mp hb with h | h
        · rw [h]
          exact (List.length_take _ _).le.trans (by omega)
        · exact ihmem b h
      · rw [List.flatten_cons, ihflat, List.take_append_drop]

/-- C3 (amended): for every batch size `B > 0` the chunking loop returns
`max 1 ⌈L/B⌉` batches — exactly `⌈L/B⌉` for a non-empty operation list,
but one (empty) batch for the empty list, because the do/while body runs
before testing the pool — each batch holds at most `B` operations, and
concatenating the batches in order reproduces the input exactly. -/
theorem buildAggregateCompleteTxBatches_spec {α : Type} (txs : List α) (B : ℕ)
    (hB : 0 < B) :
    (SymbolService.buildAggregateCompleteTxBatches txs B).length
        = max 1 (ceilDiv txs.length B) ∧
    (∀ b ∈ SymbolService.buildAggregateCompleteTxBatches txs B, b.length ≤ B) ∧
    (SymbolService.buildAggregateCompleteTxBatches txs B).flatten = txs :=
  buildBatchesAux_spec B hB (txs.length + 1) txs (Nat.lt_succ_self _)

theorem buildAggregateCompleteTxBatches_spec_witness :
    0 < 2 ∧
      ((SymbolService.buildAggregateCompleteTxBatches [10, 20, 30, 40, 50] 2).length
          = max 1 (ceilDiv [10, 20, 30, 40, 50].length 2) ∧
        (∀ b ∈ SymbolService.buildAggregateCompleteTxBatches [10, 20, 30, 40, 50] 2,
          b.length ≤ 2) ∧
        (SymbolService.buildAggregateCompleteTxBatches [10, 20, 30, 40, 50] 2).flatten
          = [10, 20, 30, 40, 50]) :=
  ⟨by decide, buildAggregateCompleteTxBatches_spec [10, 20, 30, 40, 50] 2 (by decide)⟩

/-- C3 counterexample: on the empty operation list the do/while still runs
once, so chunking returns one (empty) batch where `⌈0/B⌉ = 0` batches were
claimed. -/
theorem buildAggregateCompleteTxBatches_nil_counterexample :
    ¬ ((SymbolService.buildAggregateCompleteTxBatches ([] : List ℕ) 100).length
        = ceilDiv ([] : List ℕ).length 100) := by
  decide

/-- C4 (amended): a dispatcher worker announces **every** batch of its
queue — `resolve(errors)` settles the promise's value but does not break
the drain loop — and yields the error list of the earliest failing batch,
or nothing (`undefined`) when no batch fails. -/
theorem executeBatchesWorker_spec {β ε : Type} (listenErrors : β → List ε)
    (queue : List β) :
    (SymbolService.executeBatchesWorker listenErrors queue).1 = queue ∧
    (SymbolService.executeBatchesWorker listenErrors queue).2 =
      (queue.find? fun b => !(listenErrors b).isEmpty).map listenErrors := by
  induction queue with
  | nil => exact ⟨rfl, rfl⟩
  | cons b t ih =>
    rw [SymbolService.executeBatchesWorker]
    by_cases h : (listenErrors b).isEmpty
    · rw [List.find?_cons_of_neg _ (by simp [h])]
      exact ⟨by rw [ih.1], by rw [if_pos h, ih.2]⟩
    · rw [List.find?_cons_of_pos _ (by simp [h])]
      exact ⟨by rw [ih.1], by rw [if_neg h, Option.map_some']⟩

/-- C4 counterexample: with two batches where only the first one fails
confirmation, the worker still announces the second batch after the error
(the claim says it announces no further batches), while its settled value
is the first batch's error list. -/
theorem executeBatchesWorker_counterexample :
    (SymbolService.executeBatchesWorker
        (fun b => if b = 1 then [7] else ([] : List ℕ)) [1, 2]).1 = [1, 2] ∧
    ¬ (SymbolService.executeBatchesWorker
        (fun b => if b = 1 then [7] else ([] : List ℕ)) [1, 2]).1 = [1] ∧
    (SymbolService.executeBatchesWorker
        (fun b => if b = 1 then [7] else ([] : List ℕ)) [1, 2]).2 = some [7] := by
  refine ⟨rfl, ?_, rfl⟩
  decide

/-! ### Undead transaction protocol (necromancy module)

Data model of `AggregateUndeadTransaction` / `NecromancyService`.  The
symbol-sdk collaborators are embedded as follows: an `Account` is a public
key with its (opaque) signing primitive; an `AggregateTransaction` is
represented by its canonical serialized payload, `createFromPayload`
parsing a payload and `serialize` rendering it back — the SDK round-trip
`serialize(createFromPayload(p)) = p` this module relies on. -/

structure Account where
  publicKey : List Char
  signHash : List Char → List Char

/-- SDK `CosignatureTransaction.signTransactionHash(cosigner, hash)`: a fresh cosignature over `hash` by `cosigner`. -/
def CosignatureTransaction.signTransactionHash (cosigner : Account)
    (hash : List Char) : CosignatureSignedTransaction :=
  { parentHash := hash
    signature := cosigner.signHash hash
    signerPublicKey := cosigner.publicKey
    version := { lower := 0, higher := 0 } }

structure AggregateTransaction where
  payload : List Char
deriving DecidableEq, Repr

def AggregateTransaction.serialize (tx : AggregateTransaction) : List Char :=
  tx.payload

def AggregateTransaction.createFromPayload (p : List Char) : AggregateTransaction :=
  ⟨p⟩

structure UndeadSignature where
  deadline : ℚ
  hash : List Char
  signature : List Char
  cosignatures : List CosignatureSignedTransaction
deriving DecidableEq, Repr

structure AggregateUndeadTransaction where
  publicKey : List Char
  aggregateTx : AggregateTransaction
  signatures : List UndeadSignature
deriving DecidableEq, Repr

/-! JSON record shapes produced by `toJSON` and consumed by
`createFromJSON`: cosignature versions travel as the `[lower, higher]`
DTO pair. -/

structure CosignatureJSON where
  parentHash : List Char
  signature : List Char
  signerPublicKey : List Char
  version : List ℕ
deriving DecidableEq, Repr

structure UndeadSignatureJSON where
  deadline : ℚ
  hash : List Char
  signature : List Char
  cosignatures : List CosignatureJSON
deriving DecidableEq, Repr

structure AggregateUndeadTransactionJSON where
  version : List Char
  publicKey : List Char
  aggregateTxPayload : List Char
  signatures : List UndeadSignatureJSON
deriving DecidableEq, Repr

namespace AggregateUndeadTransaction

def VERSION : List Char :=
  ['1', '.', '0']

/-- Embedding of `AggregateUndeadTransaction.toJSON`. -/
def toJSON (u : AggregateUndeadTransaction) : AggregateUndeadTransactionJSON :=
  { version := VERSION
    publicKey := u.publicKey
    aggregateTxPayload := u.aggregateTx.serialize
    signatures := u.signatures.map fun signature =>
      { deadline := signature.deadline
        hash := signature.hash
        signature := signature.signature
        cosignatures := signature.cosignatures.map fun cosignature =>
          { parentHash := cosignature.parentHash
            signature := cosignature.signature
            signerPublicKey := cosignature.signerPublicKey
            version := cosignature.version.toDTO } } }

/-- Embedding of `AggregateUndeadTransaction.createFromJSON`: hard failure on a version
mismatch, otherwise rebuilds the structure, re-parsing the aggregate
payload and re-wrapping each cosignature version DTO. -/
def createFromJSON (json : AggregateUndeadTransactionJSON) :
    Except (List Char) AggregateUndeadTransaction :=
  if json.version ≠ VERSION then
    .error ("Version mismatched: ".toList ++ json.version)
  else
    .ok
      { publicKey := json.publicKey
        aggregateTx := AggregateTransaction.createFromPayload json.aggregateTxPayload
        signatures := json.signatures.map fun signature =>
          { deadline := signature.deadline
            hash := signature.hash
            signature := signature.signature
            cosignatures := signature.cosignatures.map fun cosignature =>
              { parentHash := cosignature.parentHash
                signature := cosignature.signature
                signerPublicKey := cosignature.signerPublicKey
                version := UInt64.fromDTO cosignature.version } } }

end AggregateUndeadTransaction

/-- C7: serialization round-trip — decoding the serialized record of any
built `AggregateUndeadTransaction` succeeds (the written version matches)
and returns a value structurally equal to the original on every field:
public key, representative aggregate transaction, and each life's
deadline, hash, signature and cosignature list. -/
theorem createFromJSON_toJSON (u : AggregateUndeadTransaction) :
    AggregateUndeadTransaction.createFromJSON (AggregateUndeadTransaction.toJSON u)
      = Except.ok u := by
  unfold AggregateUndeadTransaction.createFromJSON AggregateUndeadTransaction.toJSON
  rw [if_neg (by simp)]
  cases u with
  | mk pk agg sigs =>
    cases agg
    simp [AggregateTransaction.serialize, AggregateTransaction.createFromPayload,
      List.map_map, Function.comp_def, UInt64.fromDTO, UInt64.toDTO, List.map_id']

structure NecromancyServiceConfig where
  deadlineUnitHours : ℚ
  deadlineMarginHours : ℚ
deriving DecidableEq, Repr

/-- SDK `Deadline.create(epochAdjustment, hours).adjustedValue` (modelled):
milliseconds since the network epoch of the instant `hours`
hours from now, i.e. `Date.now() + hours·3600000 − epochAdjustment·1000`.
The service always passes `epochAdjustment + timeShiftSecs` as the first
argument. -/
def deadlineAdjustedValue (nowMs epochAdjustmentSecs hours : ℚ) : ℚ :=
  nowMs + hours * 3600000 - epochAdjustmentSecs * 1000

namespace NecromancyService

/-- Embedding of `NecromancyService.cosignTx`: pushes, for every life, a copy whose
cosignature list is extended with fresh cosignatures from
`cosignerAccounts` over that life's hash. -/
def cosignTx (undeadTx : AggregateUndeadTransaction)
    (cosignerAccounts : List Account) : AggregateUndeadTransaction :=
  let signatures := undeadTx.signatures.foldl
    (fun acc signature => acc ++
      [{ signature with
          cosignatures := signature.cosignatures ++
            cosignerAccounts.map fun cosigner =>
              CosignatureTransaction.signTransactionHash cosigner signature.hash }])
    []
  { publicKey := undeadTx.publicKey
    aggregateTx := undeadTx.aggregateTx
    signatures := signatures }

/-- Deadlines of the lives built by `NecromancyService.createTx`'s loop:
`numExtends = Math.ceil(deadlineHours / deadlineUnitHours)` iterations,
life `i` at `min(deadlineUnitHours·(i+1), deadlineHours)` hours ahead
under the (possibly shifted) clock. -/
def createTxDeadlines (config : NecromancyServiceConfig)
    (nowMs epochAdjustment deadlineHours timeShiftSecs : ℚ) : List ℚ :=
  let numExtends := (⌈deadlineHours / config.deadlineUnitHours⌉).toNat
  (List.range numExtends).map fun (i : ℕ) =>
    deadlineAdjustedValue nowMs (epochAdjustment + timeShiftSecs)
      (min (config.deadlineUnitHours * ((i : ℚ) + 1)) deadlineHours)

/-- Embedding of `NecromancyService.createTx`, reduced to what the claims observe: the
synchronous validation of the inner-transaction list, and on success the
deadlines of the lives built by the loop (the per-life hash, signature and
cosignatures come from the SDK's signing primitives over those
deadlines). -/
def createTx {α : Type} (config : NecromancyServiceConfig)
    (nowMs epochAdjustment deadlineHours : ℚ) (innerTxs : List α)
    (timeShiftSecs : ℚ) : Except String (List ℚ) :=
  if innerTxs.length < 1 then
    .error "Empty inner transactions."
  else if innerTxs.length > 99 then
    .error "Number of inner transactions must be 99 or less."
  else
    .ok (createTxDeadlines config nowMs epochAdjustment deadlineHours timeShiftSecs)

/-- The picking loop of `NecromancyService.pickAndCastTx`: walk the lives
in order, keeping each as the tentative pick, and break out as soon as a
life's `deadline − marginMsecs` lies beyond the reference value. -/
def pickLoop (refValue marginMsecs : ℚ) :
    Option UndeadSignature → List UndeadSignature → Option UndeadSignature
  | picked, [] => picked
  | picked, signature :: rest =>
    if signature.deadline - marginMsecs > refValue then picked
    else pickLoop refValue marginMsecs (some signature) rest

/-- Embedding of `NecromancyService.pickAndCastTx`, reduced to the picked life: the
reference is `Deadline.create(epochAdjustment + timeShiftSecs,
deadlineUnitHours).adjustedValue`, the margin is `deadlineMarginHours` in
milliseconds; the function returns `undefined` exactly when the loop picks
nothing (`pickedSignature && {...}`). -/
def pickAndCastTx (config : NecromancyServiceConfig)
    (undeadTx : AggregateUndeadTransaction)
    (nowMs epochAdjustment timeShiftSecs : ℚ) : Option UndeadSignature :=
  pickLoop
    (deadlineAdjustedValue nowMs (epochAdjustment + timeShiftSecs)
      config.deadlineUnitHours)
    (config.deadlineMarginHours * 60 * 60 * 1000)
    none undeadTx.signatures

end NecromancyService

theorem foldl_push_map {α β : Type} (f : α → β) :
    ∀ (l : List α) (acc : List β),
      l.foldl (fun a x => a ++ [f x]) acc = acc ++ l.map f := by
  intro l
  induction l with
  | nil => intro acc; simp
  | cons x t ih => intro acc; simp [ih, List.append_assoc]

/-- C8: `cosignTx` returns a new `AggregateUndeadTransaction` with the
same public key and representative aggregate, whose every life keeps its
deadline, hash and signature and has its cosignature list extended by
exactly one fresh cosignature per extra cosigner, signed over that life's
hash; the argument is untouched (the embedding is a pure function). -/
theorem cosignTx_spec (u : AggregateUndeadTransaction) (cosigners : List Account) :
    (NecromancyService.cosignTx u cosigners).publicKey = u.publicKey ∧
    (NecromancyService.cosignTx u cosigners).aggregateTx = u.aggregateTx ∧
    (NecromancyService.cosignTx u cosigners).signatures = u.signatures.map fun s =>
      { deadline := s.deadline
        hash := s.hash
        signature := s.signature
        cosignatures := s.cosignatures ++ cosigners.map fun c =>
          CosignatureTransaction.signTransactionHash c s.hash } := by
  refine ⟨rfl, rfl, ?_⟩
  show u.signatures.foldl _ [] = _
  rw [foldl_push_map]
  simp

/-- C1: for `totalHours > 0` (and a positive deadline unit), `createTx`
builds exactly `⌈totalHours / deadlineUnitHours⌉` lives with strictly
increasing deadlines; life `i` lies `min(deadlineUnitHours·(i+1),
totalHours)` hours ahead of the (shifted) clock, so the last life lies
exactly `totalHours` ahead. -/
theorem createTx_lives (cfg : NecromancyServiceConfig) (now epoch shift total : ℚ)
    (hunit : 0 < cfg.deadlineUnitHours) (htotal : 0 < total) :
    (NecromancyService.createTxDeadlines cfg now epoch total shift).length
        = (⌈total / cfg.deadlineUnitHours⌉).toNat ∧
    List.Pairwise (· < ·) (NecromancyService.createTxDeadlines cfg now epoch total shift) ∧
    (∀ i (h : i < (NecromancyService.createTxDeadlines cfg now epoch total shift).length),
      (NecromancyService.createTxDeadlines cfg now epoch total shift).get ⟨i, h⟩ =
        deadlineAdjustedValue now (epoch + shift)
          (min (cfg.deadlineUnitHours * ((i : ℚ) + 1)) total)) ∧
    (NecromancyService.createTxDeadlines cfg now epoch total shift).getLast? =
      some (deadlineAdjustedValue now (epoch + shift) total) := by
  set U := cfg.deadlineUnitHours with hU
  set n := (⌈total / U⌉).toNat with hn
  have hcpos : (0 : ℤ) < ⌈total / U⌉ := Int.ceil_pos.mpr (div_pos htotal hunit)
  have hnpos : 0 < n := by omega
  have hcast : ((n : ℚ)) = ((⌈total / U⌉ : ℤ) : ℚ) := by
    rw [hn]
    exact_mod_cast congrArg (fun z : ℤ => (z : ℚ)) (Int.toNat_of_nonneg (le_of_lt hcpos))
  have hle : total / U ≤ (n : ℚ) := by
    rw [hcast]
    exact Int.le_ceil _
  have hlt : (n : ℚ) - 1 < total / U := by
    have hc1 := Int.ceil_lt_add_one (total / U)
    rw [← hcast] at hc1
    linarith
  have htotle : total ≤ U * n := by
    have := (div_le_iff₀ hunit).mp hle
    linarith
  have hUn1 : U * ((n : ℚ) - 1) < total := by
    have := (lt_div_iff₀ hunit).mp hlt
    linarith
  have hget : ∀ i (h : i < (NecromancyService.createTxDeadlines cfg now epoch total shift).length),
      (NecromancyService.createTxDeadlines cfg now epoch total shift).get ⟨i, h⟩ =
        deadlineAdjustedValue now (epoch + shift) (min (U * ((i : ℚ) + 1)) total) := by
    intro i h
    simp only [NecromancyService.createTxDeadlines, List.get_eq_getElem,
      List.getElem_map, List.getElem_range]
  have hlen : (NecromancyService.createTxDeadlines cfg now epoch total shift).length = n := by
    simp only [NecromancyService.createTxDeadlines, List.length_map, List.length_range]
  have key : ∀ i j : ℕ, i < j → j < n →
      min (U * ((i : ℚ) + 1)) total < min (U * ((j : ℚ) + 1)) total := by
    intro i j hij hj
    have hi1 : (i : ℚ) + 1 ≤ (n : ℚ) - 1 := by
      have h1 : i + 1 ≤ n - 1 := by omega
      have h2 : ((i + 1 : ℕ) : ℚ) ≤ ((n - 1 : ℕ) : ℚ) := by exact_mod_cast h1
      push_cast [Nat.cast_sub (show 1 ≤ n by omega)] at h2
      linarith
    have hilt : U * ((i : ℚ) + 1) < total := by
      have hmono : U * ((i : ℚ) + 1) ≤ U * ((n : ℚ) - 1) :=
        mul_le_mul_of_nonneg_left hi1 (le_of_lt hunit)
      linarith
    rw [min_eq_left (le_of_lt hilt)]
    refine lt_min ?_ hilt
    have : (i : ℚ) + 1 < (j : ℚ) + 1 := by exact_mod_cast Nat.succ_lt_succ hij
    exact mul_lt_mul_of_pos_left this hunit
  refine ⟨hlen, ?_, hget, ?_⟩
  · rw [List.pairwise_iff_get]
    rintro ⟨a, ha⟩ ⟨b, hb⟩ hab
    rw [hget a ha, hget b hb]
    unfold deadlineAdjustedValue
    have hab' : a < b := Fin.mk_lt_mk.mp hab
    have hbn : b < n := by
      have := hb
      omega
    have := key a b hab' hbn
    linarith
  · rw [List.getLast?_eq_getElem?, hlen]
    have hn1 : n - 1 < (NecromancyService.createTxDeadlines cfg now epoch total shift).length := by
      omega
    rw [List.getElem?_eq_getElem hn1]
    have hg := hget (n - 1) hn1
    rw [List.get_eq_getElem] at hg
    rw [hg]
    have harg : min (U * (((n - 1 : ℕ) : ℚ) + 1)) total = total := by
      have hcast1 : ((n - 1 : ℕ) : ℚ) + 1 = (n : ℚ) := by
        push_cast [Nat.cast_sub (show 1 ≤ n by omega)]
        ring
      rw [hcast1]
      exact min_eq_right htotle
    rw [harg]

theorem createTx_lives_witness :
    ((0 : ℚ) < ({ deadlineUnitHours := 5, deadlineMarginHours := 1 } :
        NecromancyServiceConfig).deadlineUnitHours ∧ (0 : ℚ) < 24) ∧
    ((NecromancyService.createTxDeadlines
          { deadlineUnitHours := 5, deadlineMarginHours := 1 } 0 0 24 0).length
        = (⌈(24 : ℚ) / ({ deadlineUnitHours := 5, deadlineMarginHours := 1 } :
            NecromancyServiceConfig).deadlineUnitHours⌉).toNat ∧
      List.Pairwise (· < ·)
        (NecromancyService.createTxDeadlines
          { deadlineUnitHours := 5, deadlineMarginHours := 1 } 0 0 24 0) ∧
      (∀ i (h : i < (NecromancyService.createTxDeadlines
            { deadlineUnitHours := 5, deadlineMarginHours := 1 } 0 0 24 0).length),
        (NecromancyService.createTxDeadlines
            { deadlineUnitHours := 5, deadlineMarginHours := 1 } 0 0 24 0).get ⟨i, h⟩ =
          deadlineAdjustedValue 0 (0 + 0)
            (min (({ deadlineUnitHours := 5, deadlineMarginHours := 1 } :
                NecromancyServiceConfig).deadlineUnitHours * ((i : ℚ) + 1)) 24)) ∧
      (NecromancyService.createTxDeadlines
          { deadlineUnitHours := 5, deadlineMarginHours := 1 } 0 0 24 0).getLast? =
        some (deadlineAdjustedValue 0 (0 + 0) 24)) :=
  ⟨⟨by norm_num, by norm_num⟩,
    createTx_lives { deadlineUnitHours := 5, deadlineMarginHours := 1 } 0 0 0 24
      (by norm_num) (by norm_num)⟩

/-- C9: `createTx` fails synchronously exactly on the out-of-range
operation lists: the empty list ("Empty inner transactions.") and lists
longer than 99, the per-aggregate ceiling (100) minus the slot reserved
for the lock operation; for every list of length 1..99 the validation
passes. -/
theorem createTx_error_iff {α : Type} (cfg : NecromancyServiceConfig)
    (now epoch shift total : ℚ) (innerTxs : List α) :
    (NecromancyService.createTx cfg now epoch total innerTxs shift).isOk = true ↔
      1 ≤ innerTxs.length ∧ innerTxs.length ≤ 99 := by
  unfold NecromancyService.createTx
  split_ifs with h1 h2
  · constructor
    · intro h
      simp [Except.isOk, Except.toBool] at h
    · intro h
      omega
  · constructor
    · intro h
      simp [Except.isOk, Except.toBool] at h
    · intro h
      omega
  · constructor
    · intro _
      omega
    · intro _
      rfl

theorem pickLoop_some_isSome (ref m : ℚ) :
    ∀ (l : List UndeadSignature) (x : UndeadSignature),
      (NecromancyService.pickLoop ref m (some x) l).isSome = true := by
  intro l
  induction l with
  | nil => intro x; rfl
  | cons s t ih =>
    intro x
    rw [NecromancyService.pickLoop]
    by_cases h : s.deadline - m > ref
    · rw [if_pos h]
      rfl
    · rw [if_neg h]
      exact ih s

/-- C2 (amended): pick finds a life **iff** the life list is non-empty and
the first life's deadline minus the margin does not lie beyond the
evaluation reference (now+shift plus `deadlineUnitHours`); so besides the
empty list, pick also finds no life when the evaluation reference is more
than the margin short of even the first life's deadline (e.g. a large
enough `timeShiftSecs`). -/
theorem pickAndCastTx_isSome_iff (cfg : NecromancyServiceConfig)
    (u : AggregateUndeadTransaction) (now epoch shift : ℚ) :
    (NecromancyService.pickAndCastTx cfg u now epoch shift).isSome = true ↔
      (u.signatures ≠ [] ∧ ∀ s0 ∈ u.signatures.head?,
        ¬ (s0.deadline - cfg.deadlineMarginHours * 60 * 60 * 1000 >
            deadlineAdjustedValue now (epoch + shift) cfg.deadlineUnitHours)) := by
  unfold NecromancyService.pickAndCastTx
  cases hsig : u.signatures with
  | nil => simp [NecromancyService.pickLoop]
  | cons s t =>
    rw [NecromancyService.pickLoop]
    by_cases h : s.deadline - cfg.deadlineMarginHours * 60 * 60 * 1000 >
        deadlineAdjustedValue now (epoch + shift) cfg.deadlineUnitHours
    · rw [if_pos h]
      simp
      linarith
    · rw [if_neg h]
      simp [pickLoop_some_isSome]
      linarith [not_lt.mp h]

/-- C2 counterexample: with the default configuration (unit 5h, margin 1h)
and a single life whose stored deadline (10^13 ms past the epoch) is more
than the margin beyond the evaluation reference (clock at 0), pick finds
no life even though the life list is non-empty. -/
theorem pickAndCastTx_counterexample :
    NecromancyService.pickAndCastTx
        { deadlineUnitHours := 5, deadlineMarginHours := 1 }
        { publicKey := []
          aggregateTx := { payload := [] }
          signatures := [{ deadline := 10000000000000, hash := [], signature := [],
                           cosignatures := [] }] }
        0 0 0 = none ∧
    ({ publicKey := []
       aggregateTx := { payload := [] }
       signatures := [{ deadline := 10000000000000, hash := [], signature := [],
                        cosignatures := [] }] } :
        AggregateUndeadTransaction).signatures ≠ [] := by
  constructor
  · unfold NecromancyService.pickAndCastTx
    rw [NecromancyService.pickLoop, if_pos]
    norm_num [deadlineAdjustedValue]
  · simp

/-! ### XYM decimal conversion (`toXYM` / `toMicroXYM`) -/

/-- JS `str.slice(-k)`: the last `k` characters. -/
def sliceNeg (k : ℕ) (l : List Char) : List Char :=
  l.drop (l.length - k)

/-- JS `str.replace(/0+$/g, '')`: strip all trailing zeros. -/
def stripTrailingZeros (l : List Char) : List Char :=
  (l.reverse.dropWhile (fun c => c == '0')).reverse

/-- JS `const [integer, decimal] = s.split('.')`: the first segment and,
when a dot occurs, the second segment (up to any further dot). -/
def splitDotFirst : List Char → List Char × Option (List Char)
  | [] => ([], none)
  | c :: rest =>
    if c = '.' then ([], some (rest.takeWhile fun c2 => c2 ≠ '.'))
    else
      let r := splitDotFirst rest
      (c :: r.1, r.2)

/-! Signed 64-bit `Long` model.  The source's `toXYM`/`toMicroXYM` route
every value through the `long` library: `fromString`/`mul`/`add` wrap in
two's complement at `2^63`, `div`/`mod` truncate toward zero, and a
malformed numeral makes `fromString` throw. -/

/-- Two's-complement wrap of an integer into `[-2^63, 2^63)`, as performed
by every arithmetic step of the `long` library. -/
def wrapZ (z : ℤ) : ℤ :=
  (z + 2 ^ 63) % 2 ^ 64 - 2 ^ 63

/-- JS `Long.prototype.toString()`: a minus sign followed by the decimal
digits of the absolute value. -/
def jsToStringInt (z : ℤ) : List Char :=
  if z < 0 then '-' :: jsToString 10 z.natAbs else jsToString 10 z.natAbs

/-- JS `Long.fromString` (signed, radix 10): the empty string is an error,
a leading minus negates the parse of the rest, a minus anywhere else is
the `interior hyphen` error, and the digit value wraps in two's
complement. -/
def jsLongFromString : List Char → Except String ℤ
  | [] => Except.error "empty string"
  | c :: rest =>
    if c = '-' then (jsLongFromString rest).map fun z => wrapZ (-z)
    else if '-' ∈ c :: rest then Except.error "interior hyphen"
    else Except.ok (wrapZ (decodeChars 10 (c :: rest)))

/-- JS `Long.prototype.mul` (signed, wrapping). -/
def longMul (a b : ℤ) : ℤ :=
  wrapZ (a * b)

/-- JS `Long.prototype.add` (signed, wrapping). -/
def longAdd (a b : ℤ) : ℤ :=
  wrapZ (a + b)

/-- SDK `UInt64.fromNumericString`: rejects anything but a non-empty
all-digit string (in particular a minus sign from a wrapped negative),
then parses it as an unsigned 64-bit value. -/
def uint64FromNumericString (l : List Char) : Except String ℕ :=
  if l.isEmpty then Except.error "Input string is not a valid numeric string"
  else if l.all (fun c => c.isDigit) then Except.ok (decodeChars 10 l % 2 ^ 64)
  else Except.error "Input string is not a valid numeric string"

namespace SymbolService

/-- Embedding of `SymbolService.toXYM` from `src/services/symbol.ts`: the
amount is pushed through signed `Long.fromString` (wrapping at `2^63`),
then rendered as `value.div(10^6)` dot `value.mod(10^6)` — the fractional
part left-padded to six characters and stripped of trailing zeros, the dot
omitted when it is empty.  `Long`'s `div`/`mod` truncate toward zero
(`Int.tdiv`/`Int.tmod`), so amounts at and above `2^63` render negative
fragments. -/
def toXYM (microXYM : ℕ) : List Char :=
  let value : ℤ := wrapZ (microXYM : ℤ)
  let decimal := stripTrailingZeros
    (sliceNeg 6 (List.replicate 6 '0' ++ jsToStringInt (value.tmod 1000000)))
  let integer := jsToStringInt (value.tdiv 1000000)
  integer ++ (if decimal.isEmpty then [] else '.' :: decimal)

/-- Embedding of `SymbolService.toMicroXYM` from `src/services/symbol.ts`:
split on the dot, parse both parts with signed `Long.fromString` (each
parse can throw), recombine with wrapping `mul`/`add`, render, and convert
through `UInt64.fromNumericString`. -/
def toMicroXYM (xym : List Char) : Except String ℕ :=
  let p := splitDotFirst xym
  match jsLongFromString p.1,
      jsLongFromString (match p.2 with
        | some decimal => (decimal ++ List.replicate 6 '0').take 6
        | none => ['0']) with
  | Except.ok integer, Except.ok decimal =>
    uint64FromNumericString (jsToStringInt (longAdd (longMul integer 1000000) decimal))
  | Except.error e, _ => Except.error e
  | _, Except.error e => Except.error e

end SymbolService

theorem sliceNeg_pad (k : ℕ) (D : List Char) (h : D.length ≤ k) :
    sliceNeg k (List.replicate k '0' ++ D) = List.replicate (k - D.length) '0' ++ D := by
  unfold sliceNeg
  have hlen : (List.replicate k '0' ++ D).length - k = D.length := by
    simp
  rw [hlen, List.drop_append_of_le_length (by simp [h]), List.drop_replicate]

theorem jsToString_no_dot (b n : ℕ) (hb2 : 2 ≤ b) (hb : b ≤ 16) :
    ∀ c ∈ jsToString b n, c ≠ '.' := by
  intro c hc
  unfold jsToString at hc
  have hdigit : ∀ d : ℕ, d < 16 → Nat.digitChar d ≠ '.' := by decide
  by_cases h0 : n = 0
  · rw [h0] at hc
    simp at hc
    subst hc
    decide
  · rw [if_neg h0, jsDigits_eq_digits b hb2 n n le_rfl] at hc
    rw [List.mem_reverse, List.mem_map] at hc
    obtain ⟨d, hd, hdc⟩ := hc
    have hdlt : d < 16 := lt_of_lt_of_le (Nat.digits_lt_base hb2 hd) hb
    rw [← hdc]
    exact hdigit d hdlt

theorem splitDotFirst_no_dot : ∀ l : List Char, (∀ c ∈ l, c ≠ '.') →
    splitDotFirst l = (l, none) := by
  intro l
  induction l with
  | nil => intro _; rfl
  | cons c t ih =>
    intro h
    rw [splitDotFirst, if_neg (h c (by simp)), ih (fun x hx => h x (by simp [hx]))]

theorem takeWhile_all_no_dot : ∀ l : List Char, (∀ c ∈ l, c ≠ '.') →
    (l.takeWhile fun c2 => c2 ≠ '.') = l := by
  intro l
  induction l with
  | nil => intro _; rfl
  | cons c t ih =>
    intro h
    rw [List.takeWhile_cons]
    rw [if_pos (by simpa using h c (by simp))]
    rw [ih (fun x hx => h x (by simp [hx]))]

theorem splitDotFirst_append (a b : List Char) (ha : ∀ c ∈ a, c ≠ '.')
    (hb : ∀ c ∈ b, c ≠ '.') :
    splitDotFirst (a ++ '.' :: b) = (a, some b) := by
  induction a with
  | nil =>
    rw [List.nil_append, splitDotFirst, if_pos rfl, takeWhile_all_no_dot b hb]
  | cons c t ih =>
    rw [List.cons_append, splitDotFirst, if_neg (ha c (by simp)),
      ih (fun x hx => ha x (by simp [hx]))]

theorem strip_append_replicate (l : List Char) :
    stripTrailingZeros l ++
      List.replicate (l.length - (stripTrailingZeros l).length) '0' = l := by
  unfold stripTrailingZeros
  have hsplit := List.takeWhile_append_dropWhile (p := fun c => c == '0') (l := l.reverse)
  have htake : l.reverse.takeWhile (fun c => c == '0') =
      List.replicate (l.reverse.takeWhile (fun c => c == '0')).length '0' := by
    apply List.eq_replicate_of_mem
    intro c hc
    have := List.mem_takeWhile_imp hc
    simpa using this
  have hlenseq : (l.reverse.takeWhile (fun c => c == '0')).length +
      (l.reverse.dropWhile (fun c => c == '0')).length = l.length := by
    have := congrArg List.length hsplit
    simp only [List.length_append, List.length_reverse] at this
    exact this
  have hlen2 : (l.reverse.takeWhile (fun c => c == '0')).length =
      l.length - (l.reverse.dropWhile (fun c => c == '0')).length := by
    omega
  calc (l.reverse.dropWhile (fun c => c == '0')).reverse ++
        List.replicate (l.length - ((l.reverse.dropWhile (fun c => c == '0')).reverse).length) '0'
      = (l.reverse.dropWhile (fun c => c == '0')).reverse ++
        (List.replicate (l.reverse.takeWhile (fun c => c == '0')).length '0').reverse := by
        rw [List.reverse_replicate, List.length_reverse, hlen2]
    _ = ((l.reverse.takeWhile (fun c => c == '0') ++
          l.reverse.dropWhile (fun c => c == '0')).reverse) := by
        rw [List.reverse_append, ← htake]
    _ = l := by rw [hsplit, List.reverse_reverse]

theorem dropWhile_head_false {p : Char → Bool} : ∀ (l : List Char) (x : Char),
    (l.dropWhile p).head? = some x → p x = false := by
  intro l
  induction l with
  | nil =>
    intro x h
    simp [List.dropWhile] at h
  | cons c t ih =>
    intro x h
    rw [List.dropWhile_cons] at h
    by_cases hc : p c
    · rw [if_pos hc] at h
      exact ih x h
    · rw [if_neg hc] at h
      simp at h
      rw [← h]
      simpa using hc

theorem strip_getLast_ne_zero (l : List Char) (x : Char)
    (h : (stripTrailingZeros l).getLast? = some x) : x ≠ '0' := by
  unfold stripTrailingZeros at h
  rw [List.getLast?_reverse] at h
  have := dropWhile_head_false _ _ h
  simpa using this

theorem wrapZ_eq_self (z : ℤ) (h0 : 0 ≤ z) (h63 : z < 2 ^ 63) : wrapZ z = z := by
  unfold wrapZ
  have hb : (0 : ℤ) ≤ z + 2 ^ 63 := add_nonneg h0 (by positivity)
  have hlt : z + 2 ^ 63 < 2 ^ 64 := by
    have hsum : (2 : ℤ) ^ 64 = 2 ^ 63 + 2 ^ 63 := by ring
    rw [hsum]
    linarith
  rw [Int.emod_eq_of_lt hb hlt]
  ring

theorem jsToStringInt_ofNat (k : ℕ) : jsToStringInt (k : ℤ) = jsToString 10 k := by
  unfold jsToStringInt
  rw [if_neg (not_lt.mpr (Int.natCast_nonneg k)), Int.natAbs_ofNat]

theorem tmod_million (v : ℕ) : (v : ℤ).tmod 1000000 = ((v % 1000000 : ℕ) : ℤ) := by
  have h : ((1000000 : ℕ) : ℤ) = (1000000 : ℤ) := by norm_num
  rw [← h, ← Int.ofNat_tmod]

theorem tdiv_million (v : ℕ) : (v : ℤ).tdiv 1000000 = ((v / 1000000 : ℕ) : ℤ) := by
  have h : ((1000000 : ℕ) : ℤ) = (1000000 : ℤ) := by norm_num
  rw [← h, ← Int.ofNat_tdiv]

theorem jsToString_mem_digitChar (b n : ℕ) (hb2 : 2 ≤ b) (hb : b ≤ 16) :
    ∀ c ∈ jsToString b n, ∃ d : ℕ, d < b ∧ c = Nat.digitChar d := by
  intro c hc
  unfold jsToString at hc
  by_cases h0 : n = 0
  · rw [h0] at hc
    simp at hc
    exact ⟨0, by omega, by rw [hc]; rfl⟩
  · rw [if_neg h0, jsDigits_eq_digits b hb2 n n le_rfl] at hc
    rw [List.mem_reverse, List.mem_map] at hc
    obtain ⟨d, hd, hdc⟩ := hc
    exact ⟨d, Nat.digits_lt_base hb2 hd, hdc.symm⟩

theorem jsToString_ne_nil (b n : ℕ) : jsToString b n ≠ [] := by
  unfold jsToString
  by_cases h0 : n = 0
  · simp [h0]
  · rw [if_neg h0]
    cases n with
    | zero => exact absurd rfl h0
    | succ m =>
      rw [jsDigits, if_neg h0]
      simp

theorem digitChar_ne_minus : ∀ d : ℕ, d < 16 → Nat.digitChar d ≠ '-' := by
  decide

theorem digitChar_isDigit : ∀ d : ℕ, d < 10 → (Nat.digitChar d).isDigit = true := by
  decide

theorem jsToString_no_minus (b n : ℕ) (hb2 : 2 ≤ b) (hb : b ≤ 16) :
    ∀ c ∈ jsToString b n, c ≠ '-' := by
  intro c hc
  obtain ⟨d, hd, rfl⟩ := jsToString_mem_digitChar b n hb2 hb c hc
  exact digitChar_ne_minus d (by omega)

theorem jsLongFromString_digits (l : List Char) (hne : l ≠ [])
    (hnm : ∀ c ∈ l, c ≠ '-') :
    jsLongFromString l = Except.ok (wrapZ (decodeChars 10 l)) := by
  cases l with
  | nil => exact absurd rfl hne
  | cons c t =>
    simp only [jsLongFromString]
    rw [if_neg (hnm c (by simp)), if_neg (fun hmem => hnm '-' hmem rfl)]

theorem uint64FromNumericString_jsToString (n : ℕ) (h64 : n < 2 ^ 64) :
    uint64FromNumericString (jsToString 10 n) = Except.ok n := by
  unfold uint64FromNumericString
  have h1 : ¬((jsToString 10 n).isEmpty = true) := by
    rw [List.isEmpty_iff]
    exact jsToString_ne_nil 10 n
  have h2 : ((jsToString 10 n).all fun c => c.isDigit) = true := by
    rw [List.all_eq_true]
    intro c hc
    obtain ⟨d, hd, rfl⟩ := jsToString_mem_digitChar 10 n (by norm_num) (by norm_num) c hc
    exact digitChar_isDigit d hd
  rw [if_neg h1, if_pos h2,
    decodeChars_jsToString 10 n (by norm_num) (by norm_num), Nat.mod_eq_of_lt h64]

/-- Evaluation of `toMicroXYM` once the two `Long` parses are known to
succeed. -/
theorem toMicroXYM_eval (xym : List Char) (a b : ℤ)
    (hI : jsLongFromString (splitDotFirst xym).1 = Except.ok a)
    (hD : jsLongFromString (match (splitDotFirst xym).2 with
        | some decimal => (decimal ++ List.replicate 6 '0').take 6
        | none => ['0']) = Except.ok b) :
    SymbolService.toMicroXYM xym =
      uint64FromNumericString (jsToStringInt (longAdd (longMul a 1000000) b)) := by
  unfold SymbolService.toMicroXYM
  dsimp only
  rw [hI, hD]

/-- C10 (amended): for every micro-XYM amount `v < 2^63` — the
non-negative range of the signed `long` integers the source converts
through — `toMicroXYM (toXYM v)` returns exactly `v`, and the fractional
part of the rendered string, when present, is non-empty and carries no
trailing zero.  At `2^63` and above the signed parse wraps, `toXYM`
renders a negative fragment and `toMicroXYM` throws (see the
counterexample), so the round trip does not extend to the full 64-bit
range. -/
theorem toMicroXYM_toXYM (v : ℕ) (h63 : v < 2 ^ 63) :
    SymbolService.toMicroXYM (SymbolService.toXYM v) = Except.ok v ∧
    ∀ d, (splitDotFirst (SymbolService.toXYM v)).2 = some d →
      d ≠ [] ∧ d.getLast? ≠ some '0' := by
  have hv63 : (v : ℤ) < 2 ^ 63 := by exact_mod_cast h63
  have hwrapv : wrapZ (v : ℤ) = (v : ℤ) := wrapZ_eq_self _ (Int.natCast_nonneg v) hv63
  have hq63 : v / 1000000 < 2 ^ 63 := lt_of_le_of_lt (Nat.div_le_self v 1000000) h63
  have hrlt : v % 1000000 < 1000000 := Nat.mod_lt v (by norm_num)
  have hpow : (10 : ℕ) ^ 6 = 1000000 := by norm_num
  have hD6 : (jsToString 10 (v % 1000000)).length ≤ 6 :=
    jsToString_length_le 10 _ 6 (by norm_num) (by norm_num) (by rw [hpow]; omega)
  have hIdec : decodeChars 10 (jsToString 10 (v / 1000000)) = v / 1000000 :=
    decodeChars_jsToString 10 _ (by norm_num) (by norm_num)
  have hInodot : ∀ c ∈ jsToString 10 (v / 1000000), c ≠ '.' :=
    jsToString_no_dot 10 _ (by norm_num) (by norm_num)
  have hInominus : ∀ c ∈ jsToString 10 (v / 1000000), c ≠ '-' :=
    jsToString_no_minus 10 _ (by norm_num) (by norm_num)
  have hIparse : jsLongFromString (jsToString 10 (v / 1000000)) =
      Except.ok ((v / 1000000 : ℕ) : ℤ) := by
    rw [jsLongFromString_digits _ (jsToString_ne_nil 10 _) hInominus, hIdec,
      wrapZ_eq_self _ (Int.natCast_nonneg _) (by exact_mod_cast hq63)]
  have htoXYM : SymbolService.toXYM v =
      jsToString 10 (v / 1000000) ++
        (if (stripTrailingZeros (sliceNeg 6 (List.replicate 6 '0' ++
            jsToString 10 (v % 1000000)))).isEmpty then []
         else '.' :: stripTrailingZeros (sliceNeg 6 (List.replicate 6 '0' ++
            jsToString 10 (v % 1000000)))) := by
    unfold SymbolService.toXYM
    simp only [hwrapv]
    rw [tmod_million, tdiv_million, jsToStringInt_ofNat, jsToStringInt_ofNat]
  rw [htoXYM, sliceNeg_pad 6 (jsToString 10 (v % 1000000)) hD6]
  set P := List.replicate (6 - (jsToString 10 (v % 1000000)).length) '0' ++
    jsToString 10 (v % 1000000) with hP
  set S := stripTrailingZeros P with hSdef
  have hPlen : P.length = 6 := by
    rw [hP]
    simp
    omega
  have hPdec : decodeChars 10 P = v % 1000000 := by
    rw [hP, decodeChars_zeros_append,
      decodeChars_jsToString 10 _ (by norm_num) (by norm_num)]
  have hsplitP : S ++ List.replicate (P.length - S.length) '0' = P :=
    strip_append_replicate P
  have hSlen : S.length ≤ 6 := by
    have := congrArg List.length hsplitP
    simp only [List.length_append, List.length_replicate] at this
    omega
  have hPnodot : ∀ c ∈ P, c ≠ '.' := by
    intro c hc
    rw [hP] at hc
    rcases List.mem_append.mp hc with h | h
    · rw [List.eq_of_mem_replicate h]
      decide
    · exact jsToString_no_dot 10 _ (by norm_num) (by norm_num) c h
  have hPnominus : ∀ c ∈ P, c ≠ '-' := by
    intro c hc
    rw [hP] at hc
    rcases List.mem_append.mp hc with h | h
    · rw [List.eq_of_mem_replicate h]
      decide
    · exact jsToString_no_minus 10 _ (by norm_num) (by norm_num) c h
  have hSnodot : ∀ c ∈ S, c ≠ '.' := by
    intro c hc
    exact hPnodot c (by rw [← hsplitP]; exact List.mem_append_left _ hc)
  have hPne : P ≠ [] := by
    intro h
    rw [h] at hPlen
    simp at hPlen
  have hPparse : jsLongFromString P = Except.ok ((v % 1000000 : ℕ) : ℤ) := by
    rw [jsLongFromString_digits P hPne hPnominus, hPdec,
      wrapZ_eq_self _ (Int.natCast_nonneg _)
        (by exact_mod_cast lt_trans hrlt (by norm_num : (1000000 : ℕ) < 2 ^ 63))]
  by_cases hS0 : S.isEmpty
  · have hSnil : S = [] := List.isEmpty_iff.mp hS0
    have hPzero : decodeChars 10 P = 0 := by
      rw [← hsplitP, hSnil, List.nil_append, ← List.append_nil (List.replicate _ '0'),
        decodeChars_zeros_append]
      rfl
    have hr0 : v % 1000000 = 0 := by rw [← hPdec, hPzero]
    have hqv : v / 1000000 * 1000000 = v := by omega
    have hsplitstr : splitDotFirst (jsToString 10 (v / 1000000) ++
        (if S.isEmpty then [] else '.' :: S)) = (jsToString 10 (v / 1000000), none) := by
      rw [if_pos hS0, List.append_nil]
      exact splitDotFirst_no_dot _ hInodot
    have h0parse : jsLongFromString (['0'] : List Char) = Except.ok 0 := by rfl
    have hcomb : longAdd (longMul ((v / 1000000 : ℕ) : ℤ) 1000000) 0 = (v : ℤ) := by
      unfold longMul longAdd
      have h1 : ((v / 1000000 : ℕ) : ℤ) * 1000000 = (v : ℤ) := by exact_mod_cast hqv
      rw [h1, wrapZ_eq_self _ (Int.natCast_nonneg v) hv63, add_zero,
        wrapZ_eq_self _ (Int.natCast_nonneg v) hv63]
    have hIp : jsLongFromString (splitDotFirst (jsToString 10 (v / 1000000) ++
        (if S.isEmpty then [] else '.' :: S))).1 =
          Except.ok ((v / 1000000 : ℕ) : ℤ) := by
      rw [hsplitstr]
      exact hIparse
    have hDp : jsLongFromString
        (match (splitDotFirst (jsToString 10 (v / 1000000) ++
            (if S.isEmpty then [] else '.' :: S))).2 with
          | some decimal => (decimal ++ List.replicate 6 '0').take 6
          | none => ['0']) = Except.ok (0 : ℤ) := by
      rw [hsplitstr]
      exact h0parse
    refine ⟨?_, ?_⟩
    · rw [toMicroXYM_eval _ _ _ hIp hDp, hcomb,
        jsToStringInt_ofNat, uint64FromNumericString_jsToString v
          (lt_trans h63 (by norm_num))]
    · intro d hd
      rw [hsplitstr] at hd
      exact absurd hd (by simp)
  · have hSnil : S ≠ [] := fun h => hS0 (by rw [h]; rfl)
    have htake : (S ++ List.replicate 6 '0').take 6 = P := by
      rw [List.take_append_eq_append_take, List.take_of_length_le hSlen,
        List.take_replicate, min_eq_left (by omega), ← hsplitP, hPlen]
    have hsplitstr : splitDotFirst (jsToString 10 (v / 1000000) ++
        (if S.isEmpty then [] else '.' :: S)) =
          (jsToString 10 (v / 1000000), some S) := by
      rw [if_neg hS0]
      exact splitDotFirst_append _ _ hInodot hSnodot
    have hDparse : jsLongFromString ((S ++ List.replicate 6 '0').take 6) =
        Except.ok ((v % 1000000 : ℕ) : ℤ) := by
      rw [htake]
      exact hPparse
    have hcomb : longAdd (longMul ((v / 1000000 : ℕ) : ℤ) 1000000)
        ((v % 1000000 : ℕ) : ℤ) = (v : ℤ) := by
      unfold longMul longAdd
      have hle : v / 1000000 * 1000000 ≤ v := Nat.div_mul_le_self v 1000000
      have h1 : wrapZ (((v / 1000000 : ℕ) : ℤ) * 1000000) =
          ((v / 1000000 * 1000000 : ℕ) : ℤ) := by
        have hcast : ((v / 1000000 : ℕ) : ℤ) * 1000000 =
            ((v / 1000000 * 1000000 : ℕ) : ℤ) := by push_cast; ring
        rw [hcast, wrapZ_eq_self _ (Int.natCast_nonneg _)
          (by exact_mod_cast lt_of_le_of_lt hle h63)]
      rw [h1]
      have h2 : ((v / 1000000 * 1000000 : ℕ) : ℤ) + ((v % 1000000 : ℕ) : ℤ) = (v : ℤ) := by
        have hnat : v / 1000000 * 1000000 + v % 1000000 = v := by omega
        exact_mod_cast hnat
      rw [h2, wrapZ_eq_self _ (Int.natCast_nonneg v) hv63]
    have hIp : jsLongFromString (splitDotFirst (jsToString 10 (v / 1000000) ++
        (if S.isEmpty then [] else '.' :: S))).1 =
          Except.ok ((v / 1000000 : ℕ) : ℤ) := by
      rw [hsplitstr]
      exact hIparse
    have hDp : jsLongFromString
        (match (splitDotFirst (jsToString 10 (v / 1000000) ++
            (if S.isEmpty then [] else '.' :: S))).2 with
          | some decimal => (decimal ++ List.replicate 6 '0').take 6
          | none => ['0']) = Except.ok ((v % 1000000 : ℕ) : ℤ) := by
      rw [hsplitstr]
      exact hDparse
    refine ⟨?_, ?_⟩
    · rw [toMicroXYM_eval _ _ _ hIp hDp, hcomb,
        jsToStringInt_ofNat, uint64FromNumericString_jsToString v
          (lt_trans h63 (by norm_num))]
    · intro d hd
      rw [hsplitstr] at hd
      simp only [Option.some.injEq] at hd
      subst hd
      refine ⟨hSnil, fun hcontra => ?_⟩
      exact strip_getLast_ne_zero P '0' (by rw [← hSdef]; exact hcontra) rfl

/-- C10 counterexample: at `v = 2^64 − 1` — inside the claim's 64-bit
domain — the source's signed `Long.fromString` wraps the amount to `−1`,
`toXYM` renders the garbage string `0.0000-1`, and `toMicroXYM` then
fails with the `long` library's interior-hyphen error instead of
returning `v`, so the claimed round-trip identity is false. -/
theorem toMicroXYM_toXYM_counterexample :
    SymbolService.toXYM 18446744073709551615 =
      ['0', '.', '0', '0', '0', '0', '-', '1'] ∧
    SymbolService.toMicroXYM (SymbolService.toXYM 18446744073709551615) =
      Except.error "interior hyphen" ∧
    SymbolService.toMicroXYM (SymbolService.toXYM 18446744073709551615) ≠
      Except.ok 18446744073709551615 ∧
    (18446744073709551615 : ℕ) < 2 ^ 64 := by
  have hE : SymbolService.toMicroXYM (SymbolService.toXYM 18446744073709551615) =
      Except.error "interior hyphen" := by rfl
  refine ⟨by decide, hE, ?_, by norm_num⟩
  rw [hE]
  intro hcontra
  exact Except.noConfusion hcontra

theorem toMicroXYM_toXYM_witness :
    123456789 < 2 ^ 63 ∧
    (SymbolService.toMicroXYM (SymbolService.toXYM 123456789) = Except.ok 123456789 ∧
      ∀ d, (splitDotFirst (SymbolService.toXYM 123456789)).2 = some d →
        d ≠ [] ∧ d.getLast? ≠ some '0') :=
  ⟨by norm_num, toMicroXYM_toXYM 123456789 (by norm_num)⟩

end SymbolEmbed
